import Mathlib

/-!
Verification of the authz-rebac ReBAC engine.

This file gives a shallow embedding of the Go sources (pkg/authz/service.go,
pkg/authz/handler.go, the repository, the db transaction helper and the
schema metadata) and proves properties of the embedded definitions.
Go maps are modelled as association lists, Go nil slices / nil pointers as
`Option`, Go `error` results as `Bool`/`Except`, and the recursive SQL
traversal as a fuel-bounded enumeration.
-/

namespace Authz

/-- Object represents a unique resource or subject (pkg/authz: `Object`).
Fields mirror the Go struct: `ID string`, `Type string`. -/
structure Object where
  id : String
  type : String
deriving DecidableEq

/-- Relationship is a directed labeled edge (pkg/authz: `Relationship`). -/
structure Relationship where
  Resource : Object
  Subject : Object
  Relation : String
deriving DecidableEq

/-- PrecedenceRule mirrors the Go struct with fields `Rule` and `Relation`. -/
structure PrecedenceRule where
  Rule : String
  Relation : String
deriving DecidableEq

/-- RelationDefinition: allowed subject types of a relation. -/
structure RelationDefinition where
  SubjectTypes : List String
deriving DecidableEq

/-- PermissionDefinition: inclusions (`AnyOf`) and exclusions (`Except`). -/
structure PermissionDefinition where
  AnyOf : List String
  Except : List String
deriving DecidableEq

/-- ObjectDefinition: relations, permissions and precedence rules of one
object type.  Go maps are modelled as association lists. -/
structure ObjectDefinition where
  Relations : List (String × RelationDefinition)
  Permissions : List (String × PermissionDefinition)
  PrecedenceRules : List PrecedenceRule
deriving DecidableEq

/-- The Go zero value of `ObjectDefinition`, returned by a failed map access. -/
def emptyObjectDefinition : ObjectDefinition := ⟨[], [], []⟩

/-- Metadata: the loaded authorization schema. -/
structure Metadata where
  SchemaVersion : String
  Objects : List (String × ObjectDefinition)
deriving DecidableEq

/-- TraversalRequest (pkg/authz).  `StopOnTypes : Option (List String)` models
the Go nil slice (`none`, mapped to SQL NULL by `pq.Array`) versus a non-nil
slice; `StopOn : Option Object` models the nil pointer. -/
structure TraversalRequest where
  StartOn : Object
  Forward : Bool
  StopOnTypes : Option (List String)
  StopOn : Option Object
deriving DecidableEq

/-- TraversalResponseItem: all discovered paths for one resource-subject pair. -/
structure TraversalResponseItem where
  Paths : List (List Relationship)
  Resource : Object
  Subject : Object
deriving DecidableEq

/-- PermissionEval: result of evaluating a single permission. -/
structure PermissionEval where
  Allowed : Bool
  MatchingPaths : List (List Relationship)
deriving DecidableEq

/-- PermissionCheckItem: permission evaluations for one resource-subject pair.
The Go `map[string]PermissionEval` is an association list here. -/
structure PermissionCheckItem where
  Resource : Object
  Subject : Object
  PermissionEvals : List (String × PermissionEval)
deriving DecidableEq

/-- pathContains reports whether the path includes a relation with the given
label (service.go `pathContains`); the Go for-loop with early return. -/
def pathContains (path : List Relationship) (relation : String) : Bool :=
  match path with
  | [] => false
  | r :: rest => if r.Relation = relation then true else pathContains rest relation

/-- pathCount returns the number of times a relation appears in the path
(service.go `pathCount`). -/
def pathCount (path : List Relationship) (relation : String) : Nat :=
  match path with
  | [] => 0
  | r :: rest =>
      if r.Relation = relation then pathCount rest relation + 1
      else pathCount rest relation

/-- compare (service.go): negative if `a` is more effective than `b`, zero if
equally effective, positive otherwise.  The Go `for`/`switch` over the rules
becomes structural recursion; an unrecognized rule kind matches no switch case
and the loop moves on. -/
def compare (a b : List Relationship) (rules : List PrecedenceRule) : Int :=
  match rules with
  | [] => 0
  | rule :: rest =>
      if rule.Rule = "path_with" then
        let aHas := pathContains a rule.Relation
        let bHas := pathContains b rule.Relation
        if aHas ≠ bHas then (if aHas then -1 else 1) else compare a b rest
      else if rule.Rule = "path_without" then
        let aHas := pathContains a rule.Relation
        let bHas := pathContains b rule.Relation
        if aHas ≠ bHas then (if !aHas then -1 else 1) else compare a b rest
      else if rule.Rule = "path_with_fewer" then
        let aCount := pathCount a rule.Relation
        let bCount := pathCount b rule.Relation
        if aCount ≠ bCount then (aCount : Int) - (bCount : Int) else compare a b rest
      else compare a b rest

/-- Loop body of `effectivePaths` (service.go): the running `effective` slice
is compared against its first element; a better path resets it, a tie appends. -/
def effectivePathsAux (rules : List PrecedenceRule) :
    List (List Relationship) → List (List Relationship) → List (List Relationship)
  | [], effective => effective
  | p :: ps, effective =>
      match effective with
      | [] => effectivePathsAux rules ps effective
      | e0 :: _ =>
          let cmp := compare p e0 rules
          if cmp < 0 then effectivePathsAux rules ps [p]
          else if cmp = 0 then effectivePathsAux rules ps (effective ++ [p])
          else effectivePathsAux rules ps effective

/-- effectivePaths (service.go): keep only the most effective paths according
to the precedence rules; Go returns nil on empty input. -/
def effectivePaths (paths : List (List Relationship)) (rules : List PrecedenceRule) :
    List (List Relationship) :=
  match paths with
  | [] => []
  | p0 :: rest => effectivePathsAux rules rest [p0]

/-- Inner loop of the allow sweep (service.go `evaluatePermission`, Rule 2):
scan the paths for one `anyOf` relation.  The second component is `true` when
the Go code performed the early `return eval` (a match was found while
`showMatchingPaths` is false). -/
def allowScan (anyOf : String) (paths : List (List Relationship))
    (showMatchingPaths : Bool) (eval : PermissionEval) : PermissionEval × Bool :=
  match paths with
  | [] => (eval, false)
  | path :: rest =>
      if pathContains path anyOf then
        if showMatchingPaths then
          allowScan anyOf rest showMatchingPaths ⟨true, eval.MatchingPaths ++ [path]⟩
        else (⟨true, eval.MatchingPaths⟩, true)
      else allowScan anyOf rest showMatchingPaths eval

/-- Outer loop of the allow sweep: scan `AnyOf` in declared order, stopping
when the inner scan returned early. -/
def allowSweep (anyOfs : List String) (paths : List (List Relationship))
    (showMatchingPaths : Bool) (eval : PermissionEval) : PermissionEval :=
  match anyOfs with
  | [] => eval
  | a :: rest =>
      let s := allowScan a paths showMatchingPaths eval
      if s.2 then s.1 else allowSweep rest paths showMatchingPaths s.1

/-- evaluatePermission (service.go): Rule 1 denies (with empty matching paths)
as soon as any path contains an excluded relation — the nested Go loops with a
constant early return are the `any` test; Rule 2 is the allow sweep starting
from the zero value `{Allowed: false}`. -/
def evaluatePermission (permission : PermissionDefinition)
    (paths : List (List Relationship)) (showMatchingPaths : Bool) : PermissionEval :=
  if permission.Except.any (fun e => paths.any (fun path => pathContains path e)) then
    ⟨false, []⟩
  else
    allowSweep permission.AnyOf paths showMatchingPaths ⟨false, []⟩

/-- IsValidObject (metadata): type and id non-empty, type declared.  `true`
models the Go function returning a nil error. -/
def isValidObject (m : Metadata) (obj : Object) : Bool :=
  if obj.type = "" then false
  else if obj.id = "" then false
  else (m.Objects.lookup obj.type).isSome

/-- IsValidObjectType (metadata): type non-empty and declared; id ignored. -/
def isValidObjectType (m : Metadata) (obj : Object) : Bool :=
  if obj.type = "" then false
  else (m.Objects.lookup obj.type).isSome

/-- IsValidRelation (metadata): both objects valid, relation non-empty and
declared on the resource type, subject type among the allowed subject types. -/
def isValidRelation (m : Metadata) (rel : Relationship) : Bool :=
  if !isValidObject m rel.Resource then false
  else if !isValidObject m rel.Subject then false
  else if rel.Relation = "" then false
  else
    match ((m.Objects.lookup rel.Resource.type).getD emptyObjectDefinition).Relations.lookup rel.Relation with
    | none => false
    | some relDef => relDef.SubjectTypes.any (fun t => t = rel.Subject.type)

/-- IsValidPermission (metadata): the object is valid and the permission is
declared on its type. -/
def isValidPermission (m : Metadata) (obj : Object) (permission : String) : Bool :=
  if !isValidObject m obj then false
  else
    match m.Objects.lookup obj.type with
    | none => false
    | some objDef => (objDef.Permissions.lookup permission).isSome

/-- Near end of a storage row under the traversal direction (§4.C step
definition; the `%[1]s` column of the SQL template). -/
def near (forward : Bool) (r : Relationship) : Object :=
  if forward then r.Resource else r.Subject

/-- Far end of a storage row under the traversal direction (the `%[2]s`
column of the SQL template). -/
def far (forward : Bool) (r : Relationship) : Object :=
  if forward then r.Subject else r.Resource

/-- One row of the recursive CTE `rel_tree` (repository `ListPaths`):
the reached node `next` and the accumulated json path.  The `start` columns
always equal the request's start object and are omitted. -/
structure PathRow where
  next : Object
  path : List Relationship
deriving DecidableEq

/-- Seed rows of the CTE: every storage row whose near end is the start node,
as a path of length 1 in original orientation. -/
def seedRows (store : List Relationship) (forward : Bool) (startOn : Object) :
    List PathRow :=
  (store.filter (fun r => near forward r = startOn)).map (fun r => ⟨far forward r, [r]⟩)

/-- Recursion guard of the CTE: `$3::text[] IS NULL OR NOT (t.next_type =
ANY($3))` — a row is extended only when `StopOnTypes` is the nil slice or the
reached type is not in it. -/
def expandAllowed (stopOnTypes : Option (List String)) (t : String) : Bool :=
  match stopOnTypes with
  | none => true
  | some ts => !(ts.contains t)

/-- Recursive step of the CTE: extend every expandable frontier row by every
storage row whose near end is the reached node. -/
def stepRows (store : List Relationship) (forward : Bool)
    (stopOnTypes : Option (List String)) (rows : List PathRow) : List PathRow :=
  rows.flatMap (fun row =>
    if expandAllowed stopOnTypes row.next.type then
      (store.filter (fun r => near forward r = row.next)).map
        (fun r => ⟨far forward r, row.path ++ [r]⟩)
    else [])

/-- Fuel-bounded union of the CTE rounds: the seed frontier plus `fuel`
recursive extensions (the SQL recursion is unbounded; every theorem below is
proved for every fuel value). -/
def enumAux (store : List Relationship) (forward : Bool)
    (stopOnTypes : Option (List String)) : Nat → List PathRow → List PathRow
  | 0, frontier => frontier
  | n + 1, frontier =>
      frontier ++ enumAux store forward stopOnTypes n
        (stepRows store forward stopOnTypes frontier)

/-- All rows enumerated by the recursive CTE for a request, up to `fuel`
extension rounds. -/
def enumRows (store : List Relationship) (req : TraversalRequest) (fuel : Nat) :
    List PathRow :=
  enumAux store req.Forward req.StopOnTypes fuel
    (seedRows store req.Forward req.StartOn)

/-- The `$4`/`$5` arguments of the query: the stop object's type and id, or
empty strings when `StopOn` is nil. -/
def stopArgs (req : TraversalRequest) : String × String :=
  match req.StopOn with
  | none => ("", "")
  | some o => (o.type, o.id)

/-- Final WHERE filter of the query:
`(($4 = '' AND $5 = '') OR (next_type = $4 AND next_id = $5)) AND
($3::text[] IS NULL OR next_type = ANY($3::text[]))`. -/
def codeKeep (req : TraversalRequest) (next : Object) : Bool :=
  ((stopArgs req).1 = "" && (stopArgs req).2 = ""
      || (next.type = (stopArgs req).1 && next.id = (stopArgs req).2))
    && (match req.StopOnTypes with
        | none => true
        | some ts => ts.contains next.type)

/-- Rows surviving the final WHERE filter of the query. -/
def keptRows (store : List Relationship) (req : TraversalRequest) (fuel : Nat) :
    List PathRow :=
  (enumRows store req fuel).filter (fun row => codeKeep req row.next)

/-- ListPaths (repository): enumerate, filter, and group the kept rows by the
reached node (`GROUP BY start_type, start_id, next_type, next_id`; the start
columns are constant).  Group order is unspecified by SQL; `List.dedup` picks
a canonical one.  Direction decides which side of the item is the start. -/
def listPaths (store : List Relationship) (req : TraversalRequest) (fuel : Nat) :
    List TraversalResponseItem :=
  ((keptRows store req fuel).map (fun row => row.next)).dedup.map (fun k =>
    if req.Forward then
      ⟨((keptRows store req fuel).filter (fun row => row.next = k)).map
        (fun row => row.path), req.StartOn, k⟩
    else
      ⟨((keptRows store req fuel).filter (fun row => row.next = k)).map
        (fun row => row.path), k, req.StartOn⟩)

/-- ListEffectivePaths (service.go): traverse, then reduce each item's paths
with the precedence rules of the start object's type (Go map access with zero
value on a missing type). -/
def listEffectivePaths (m : Metadata) (store : List Relationship)
    (req : TraversalRequest) (fuel : Nat) : List TraversalResponseItem :=
  let rules := ((m.Objects.lookup req.StartOn.type).getD emptyObjectDefinition).PrecedenceRules
  (listPaths store req fuel).map (fun item =>
    ⟨effectivePaths item.Paths rules, item.Resource, item.Subject⟩)

/-- evaluateAllPermissions (service.go): evaluate every permission declared on
the resource's type. -/
def evaluateAllPermissions (m : Metadata) (resource : Object)
    (paths : List (List Relationship)) (showMatchingPaths : Bool) :
    List (String × PermissionEval) :=
  (((m.Objects.lookup resource.type).getD emptyObjectDefinition).Permissions).map
    (fun nd => (nd.1, evaluatePermission nd.2 paths showMatchingPaths))

/-- CheckPermissions (service.go): effective paths, then all permissions per
resource-subject pair. -/
def checkPermissions (m : Metadata) (store : List Relationship)
    (req : TraversalRequest) (fuel : Nat) (showMatchingPaths : Bool) :
    List PermissionCheckItem :=
  (listEffectivePaths m store req fuel).map (fun item =>
    ⟨item.Resource, item.Subject,
      evaluateAllPermissions m item.Resource item.Paths showMatchingPaths⟩)

/-- Split a character list once on the first `:` — the `strings.SplitN(raw,
":", 2)` of the handlers and of `Object.UnmarshalJSON`.  The second component
is `none` when no colon occurs (Go: `len(parts) == 1`). -/
def splitFirstColon : List Char → List Char × Option (List Char)
  | [] => ([], none)
  | c :: cs =>
      if c = ':' then ([], some cs)
      else
        let s := splitFirstColon cs
        (c :: s.1, s.2)

/-- MarshalJSON payload of an Object: the string `type + ":" + id`. -/
def serializeObject (o : Object) : String := o.type ++ ":" ++ o.id

/-- UnmarshalJSON of an Object: split once on the first colon and require two
parts (`none` models the `invalid object format` error). -/
def parseObject (s : String) : Option Object :=
  match splitFirstColon s.data with
  | (_, none) => none
  | (t, some i) => some ⟨String.mk i, String.mk t⟩

/-- parseObjectParam (handler.go): a missing or empty parameter is an error;
otherwise split once on the first colon, the id defaulting to `""` when no
colon occurs. -/
def parseObjectParam (params : List (String × String)) (paramName : String) :
    Except String Object :=
  match params.lookup paramName with
  | none => Except.error ("required parameter " ++ paramName)
  | some raw =>
      if raw = "" then Except.error ("required parameter " ++ paramName)
      else
        let parts := splitFirstColon raw.data
        match parts.2 with
        | some i => Except.ok ⟨String.mk i, String.mk parts.1⟩
        | none => Except.ok ⟨"", String.mk parts.1⟩

/-- parseStringParam (handler.go): missing or empty is an error. -/
def parseStringParam (params : List (String × String)) (paramName : String) :
    Except String String :=
  match params.lookup paramName with
  | none => Except.error ("missing parameter " ++ paramName)
  | some raw =>
      if raw = "" then Except.error ("missing parameter " ++ paramName)
      else Except.ok raw

/-- parseBoolParam (handler.go): missing or empty defaults to `false`;
otherwise `strconv.ParseBool` accepts exactly these twelve strings. -/
def parseBoolParam (params : List (String × String)) (paramName : String) :
    Except String Bool :=
  match params.lookup paramName with
  | none => Except.ok false
  | some raw =>
      if raw = "" then Except.ok false
      else if raw ∈ ["1", "t", "T", "TRUE", "true", "True"] then Except.ok true
      else if raw ∈ ["0", "f", "F", "FALSE", "false", "False"] then Except.ok false
      else Except.error ("invalid parameter " ++ paramName)

/-- CheckPermission (handler.go, GET /permissions/\x7bpermission\x7d): validate the
parameters, build `{StartOn: resource, Forward: true, StopOn: subject}`, run
the service, then take `permissionCheck[0].PermissionEvals[permission]`.
An `Except.error` is a 400 response written before any store access.  The
inner `Option` records the Go indexing `permissionCheck[0]`: `none` means the
service returned an empty slice and the index is out of range (a Go panic);
`some` is the written `PermissionEval`, the map access defaulting to the zero
value. -/
def checkPermissionHandler (m : Metadata) (store : List Relationship) (fuel : Nat)
    (params : List (String × String)) : Except String (Option PermissionEval) :=
  match parseObjectParam params "resource" with
  | Except.error e => Except.error e
  | Except.ok resource =>
    if !isValidObject m resource then Except.error "invalid resource" else
    match parseObjectParam params "subject" with
    | Except.error e => Except.error e
    | Except.ok subject =>
      if !isValidObject m subject then Except.error "invalid subject" else
      match parseStringParam params "permission" with
      | Except.error e => Except.error e
      | Except.ok permission =>
        if !isValidPermission m resource permission then
          Except.error "invalid permission" else
        match parseBoolParam params "show_matching_paths" with
        | Except.error e => Except.error e
        | Except.ok showMatchingPaths =>
          let tRequest : TraversalRequest := ⟨resource, true, none, some subject⟩
          let permissionCheck := checkPermissions m store tRequest fuel showMatchingPaths
          match permissionCheck with
          | [] => Except.ok none
          | item :: _ =>
              Except.ok (some ((item.PermissionEvals.lookup permission).getD ⟨false, []⟩))

/-- ListResourceRelations (handler.go, GET /resources/\x7bresource\x7d/relations):
parse the resource parameter (no schema validation is performed), build
`{StartOn: resource, Forward: true, StopOnTypes: ["user", "group"]}` and call
the service.  `Except.error` is the 400 path; `Except.ok` carries the
traversal request that reached the store together with the 200 response. -/
def listResourceRelationsHandler (m : Metadata) (store : List Relationship)
    (fuel : Nat) (params : List (String × String)) :
    Except String (TraversalRequest × List TraversalResponseItem) :=
  match parseObjectParam params "resource" with
  | Except.error e => Except.error e
  | Except.ok resource =>
      let tRequest : TraversalRequest := ⟨resource, true, some ["user", "group"], none⟩
      Except.ok (tRequest, listEffectivePaths m store tRequest fuel)

/-- Observable database events of the transaction model (pkg/db and the bulk
repository operations).  Operation events carry the statement they ran on:
`some t` is transaction `t`, `none` the pool-level connection. -/
inductive DbEvent where
  | beginTx (t : Nat)
  | commitTx (t : Nat)
  | rollbackTx (t : Nat)
  | deleteOp (tx : Option Nat) (rels : List Relationship)
  | insertOp (tx : Option Nat) (rels : List Relationship)
deriving DecidableEq

/-- State threaded through the transaction model: the next fresh transaction
id and the event trace so far. -/
structure TraceSt where
  nextTx : Nat
  events : List DbEvent
deriving DecidableEq

/-- WithTransaction (pkg/db): reuse an ambient transaction when the context
carries one; otherwise begin a fresh transaction, run the function, and
commit on success or roll back on error.  The context is the `Option Nat`
ambient transaction. -/
def withTransaction (ctx : Option Nat)
    (fn : Option Nat → TraceSt → TraceSt × Except String Unit)
    (st : TraceSt) : TraceSt × Except String Unit :=
  match ctx with
  | some _ => fn ctx st
  | none =>
      let t := st.nextTx
      let st1 : TraceSt := ⟨st.nextTx + 1, st.events ++ [DbEvent.beginTx t]⟩
      let r := fn (some t) st1
      match r.2 with
      | Except.ok _ => (⟨r.1.nextTx, r.1.events ++ [DbEvent.commitTx t]⟩, Except.ok ())
      | Except.error e => (⟨r.1.nextTx, r.1.events ++ [DbEvent.rollbackTx t]⟩, Except.error e)

/-- InsertBulk as a trace event: an empty slice issues no query; otherwise one
bulk INSERT runs on the statement resolved from the context. -/
def insertBulkT (ctx : Option Nat) (rels : List Relationship) (st : TraceSt) :
    TraceSt × Except String Unit :=
  ((if rels = [] then st
    else ⟨st.nextTx, st.events ++ [DbEvent.insertOp ctx rels]⟩), Except.ok ())

/-- DeleteBulk as a trace event: an empty slice issues no query; otherwise one
bulk DELETE runs on the statement resolved from the context. -/
def deleteBulkT (ctx : Option Nat) (rels : List Relationship) (st : TraceSt) :
    TraceSt × Except String Unit :=
  ((if rels = [] then st
    else ⟨st.nextTx, st.events ++ [DbEvent.deleteOp ctx rels]⟩), Except.ok ())

/-- CreateRelationships (service.go): InsertBulk inside WithTransaction. -/
def createRelationshipsT (ctx : Option Nat) (rels : List Relationship)
    (st : TraceSt) : TraceSt × Except String Unit :=
  withTransaction ctx (fun txCtx s => insertBulkT txCtx rels s) st

/-- DeleteRelationships (service.go): DeleteBulk inside WithTransaction. -/
def deleteRelationshipsT (ctx : Option Nat) (rels : List Relationship)
    (st : TraceSt) : TraceSt × Except String Unit :=
  withTransaction ctx (fun txCtx s => deleteBulkT txCtx rels s) st

/-- ManageRelationships (handler.go, POST /relations): validate every entry of
the decoded body (a Go map, here an association list) against the schema;
on success execute the deletions, then the creations, each through its own
service call with the request context (which carries no ambient transaction).
Returns the final state and the HTTP status. -/
def manageRelationshipsT (m : Metadata) (req : List (String × List Relationship))
    (st : TraceSt) : TraceSt × Nat :=
  if req.all (fun kv => kv.2.all (fun rel => isValidRelation m rel)) then
    let st1 := match req.lookup "delete" with
      | some dels => (deleteRelationshipsT none dels st).1
      | none => st
    let st2 := match req.lookup "create" with
      | some creates => (createRelationshipsT none creates st1).1
      | none => st1
    (st2, 200)
  else (st, 400)

/-- InsertBulk's effect on the stored relation set: each row is inserted
unless the full 5-tuple already exists (`ON CONFLICT DO NOTHING`). -/
def insertBulk (store : List Relationship) (rels : List Relationship) :
    List Relationship :=
  rels.foldl (fun s r => if r ∈ s then s else s ++ [r]) store

/-- DeleteBulk's effect on the stored relation set: remove exactly the listed
5-tuples (`WHERE (...) IN (...)`); missing rows are no-ops. -/
def deleteBulk (store : List Relationship) (rels : List Relationship) :
    List Relationship :=
  store.filter (fun r => decide (r ∉ rels))

/-- Follows the spec's rule vocabulary table (§4.D), for comparison with the
source's `compare`: the verdict of one precedence rule on two paths —
`lt` means `a` better, `gt` means `b` better, `eq` means the rule ties.
A rule kind outside the vocabulary discriminates nothing. -/
def specRuleVerdict (rule : PrecedenceRule) (a b : List Relationship) : Ordering :=
  if rule.Rule = "path_with" then
    if pathContains a rule.Relation && !pathContains b rule.Relation then Ordering.lt
    else if !pathContains a rule.Relation && pathContains b rule.Relation then Ordering.gt
    else Ordering.eq
  else if rule.Rule = "path_without" then
    if !pathContains a rule.Relation && pathContains b rule.Relation then Ordering.lt
    else if pathContains a rule.Relation && !pathContains b rule.Relation then Ordering.gt
    else Ordering.eq
  else if rule.Rule = "path_with_fewer" then
    if pathCount a rule.Relation < pathCount b rule.Relation then Ordering.lt
    else if pathCount b rule.Relation < pathCount a rule.Relation then Ordering.gt
    else Ordering.eq
  else Ordering.eq

/-- Follows the spec's comparison contract wording (§4.D), for comparison with
the source's `compare`: rules are consulted in declared order, the first rule
that discriminates decides, and the result is a tie when every rule ties. -/
def specCompare (rules : List PrecedenceRule) (a b : List Relationship) : Ordering :=
  match rules with
  | [] => Ordering.eq
  | rule :: rest =>
      match specRuleVerdict rule a b with
      | Ordering.eq => specCompare rest a b
      | v => v

/-- Follows the spec's result-filter wording (§4.C), for comparison with the
source's `codeKeep`: when `stop_on` is set the far end must equal it; else a
non-empty `stop_on_types` must contain the far-end type; else keep all. -/
def specResultKeep (req : TraversalRequest) (next : Object) : Bool :=
  match req.StopOn with
  | some o => decide (next = o)
  | none =>
      match req.StopOnTypes with
      | none => true
      | some ts => if ts = [] then true else ts.contains next.type

/-- All paths carried by a traversal response, across its items. -/
def itemsPaths (items : List TraversalResponseItem) : List (List Relationship) :=
  items.flatMap (fun item => item.Paths)

/-- Modelled from the spec: the embedded `schema.yaml` is not among the
sources, so the schema document is reconstructed from §8's end-to-end scenario
schema — `document` has relations `owner`/`editor` to `user` and `parent` to
`folder` with permission `edit = any_of [owner, editor]`; `folder` has
`member` to `user` with permission `view = any_of [member]`; precedence
`[path_with owner, path_without member, path_with_fewer parent]`; `user` and
`group` are the leaf subject types of §4.F. -/
def specSchema : Metadata :=
  ⟨"v1",
    [("document",
        ⟨[("owner", ⟨["user"]⟩), ("editor", ⟨["user"]⟩), ("parent", ⟨["folder"]⟩)],
          [("edit", ⟨["owner", "editor"], []⟩)],
          [⟨"path_with", "owner"⟩, ⟨"path_without", "member"⟩,
            ⟨"path_with_fewer", "parent"⟩]⟩),
      ("folder",
        ⟨[("member", ⟨["user"]⟩)], [("view", ⟨["member"], []⟩)], []⟩),
      ("user", emptyObjectDefinition),
      ("group", emptyObjectDefinition)]⟩

theorem pathContains_iff (path : List Relationship) (relation : String) :
    pathContains path relation = true ↔ ∃ r ∈ path, r.Relation = relation := by
  induction path with
  | nil => simp [pathContains]
  | cons r rest ih =>
      by_cases h : r.Relation = relation
      · simp [pathContains, h]
      · simp [pathContains, h, ih]

theorem allowScan_allowed (a : String) (paths : List (List Relationship))
    (s : Bool) (eval : PermissionEval) :
    (allowScan a paths s eval).1.Allowed
      = (eval.Allowed || paths.any (fun p => pathContains p a)) := by
  induction paths generalizing eval with
  | nil => simp [allowScan]
  | cons p rest ih =>
      by_cases h : pathContains p a
      · cases s with
        | false => simp [allowScan, h]
        | true => simp [allowScan, h, ih]
      · simp [allowScan, h, ih]

theorem allowScan_early (a : String) (paths : List (List Relationship))
    (s : Bool) (eval : PermissionEval) :
    (allowScan a paths s eval).2
      = (!s && paths.any (fun p => pathContains p a)) := by
  induction paths generalizing eval with
  | nil => simp [allowScan]
  | cons p rest ih =>
      by_cases h : pathContains p a
      · cases s with
        | false => simp [allowScan, h]
        | true => simp [allowScan, h, ih]
      · simp [allowScan, h, ih]

theorem allowSweep_allowed (anyOfs : List String) (paths : List (List Relationship))
    (s : Bool) (eval : PermissionEval) :
    (allowSweep anyOfs paths s eval).Allowed
      = (eval.Allowed || anyOfs.any (fun a => paths.any (fun p => pathContains p a))) := by
  induction anyOfs generalizing eval with
  | nil => simp [allowSweep]
  | cons a rest ih =>
      by_cases h : (allowScan a paths s eval).2
      · have hpa : paths.any (fun p => pathContains p a) = true := by
          rw [allowScan_early] at h
          simp at h
          simp [List.any_eq_true]
          exact h.2
        simp [allowSweep, h, allowScan_allowed, hpa]
      · simp [allowSweep, h, ih, allowScan_allowed, Bool.or_assoc]

/-- C1: permission evaluation grants exactly when no path contains an excluded
relation and some path contains an included relation; an excluded relation
forces the exact result `{allowed: false, matching_paths: []}` regardless of
`show_matching_paths`; and path membership is "some edge of the path carries
the relation label", ignoring edge direction. -/
theorem C1_evaluatePermission (permission : PermissionDefinition)
    (paths : List (List Relationship)) (showMatchingPaths : Bool) :
    ((evaluatePermission permission paths showMatchingPaths).Allowed = true ↔
      ((∀ e ∈ permission.Except, ∀ path ∈ paths, pathContains path e = false) ∧
        ∃ a ∈ permission.AnyOf, ∃ path ∈ paths, pathContains path a = true))
    ∧ ((∃ e ∈ permission.Except, ∃ path ∈ paths, pathContains path e = true) →
        evaluatePermission permission paths showMatchingPaths = ⟨false, []⟩)
    ∧ (∀ path rel, pathContains path rel = true ↔ ∃ r ∈ path, r.Relation = rel) := by
  by_cases hd : permission.Except.any (fun e => paths.any (fun path => pathContains path e))
  · have hex : ∃ e ∈ permission.Except, ∃ path ∈ paths, pathContains path e = true := by
      simpa using hd
    refine ⟨?_, fun _ => by simp [evaluatePermission, hd], fun path rel => pathContains_iff path rel⟩
    simp only [evaluatePermission, hd, if_pos]
    constructor
    · intro h; exact absurd h (by simp)
    · rintro ⟨hall, -⟩
      obtain ⟨e, he, p, hp, hc⟩ := hex
      exact absurd (hall e he p hp) (by simp [hc])
  · have hall : ∀ e ∈ permission.Except, ∀ path ∈ paths, pathContains path e = false := by
      intro e he p hp
      by_contra hc
      exact hd (by
        simp only [List.any_eq_true]
        exact ⟨e, he, p, hp, by simpa using hc⟩)
    refine ⟨?_, ?_, fun path rel => pathContains_iff path rel⟩
    · simp only [evaluatePermission, hd, if_neg, Bool.false_eq_true, not_false_eq_true,
        allowSweep_allowed]
      simp only [Bool.false_or, List.any_eq_true]
      constructor
      · intro h; exact ⟨hall, by simpa using h⟩
      · rintro ⟨-, h⟩; simpa using h
    · rintro ⟨e, he, p, hp, hc⟩
      exact absurd (hall e he p hp) (by simp [hc])

/-- Witness for C1 at a concrete input: a path carrying an excluded relation
forces the denied result. -/
theorem C1_witness :
    evaluatePermission ⟨["owner"], ["banned"]⟩
      [[⟨⟨"d1", "document"⟩, ⟨"alice", "user"⟩, "banned"⟩]] true = ⟨false, []⟩ :=
  (C1_evaluatePermission ⟨["owner"], ["banned"]⟩
      [[⟨⟨"d1", "document"⟩, ⟨"alice", "user"⟩, "banned"⟩]] true).2.1
    ⟨"banned", by decide, [⟨⟨"d1", "document"⟩, ⟨"alice", "user"⟩, "banned"⟩], by decide, by decide⟩

/-- Key of one precedence rule on one path: `compare` decides by the sign of
the difference of these keys (smaller is better). -/
def ruleKey (rule : PrecedenceRule) (p : List Relationship) : Int :=
  if rule.Rule = "path_with" then (if pathContains p rule.Relation then 0 else 1)
  else if rule.Rule = "path_without" then (if pathContains p rule.Relation then 1 else 0)
  else if rule.Rule = "path_with_fewer" then (pathCount p rule.Relation : Int)
  else 0

/-- Key vector of a path under a rule sequence. -/
def keyVec (rules : List PrecedenceRule) (p : List Relationship) : List Int :=
  rules.map (fun r => ruleKey r p)

/-- Lexicographic difference of two integer lists: the first differing
coordinate decides. -/
def lexDiff : List Int → List Int → Int
  | [], _ => 0
  | _ :: _, [] => 0
  | a :: as, b :: bs => if a = b then lexDiff as bs else a - b

theorem lexDiff_self (x : List Int) : lexDiff x x = 0 := by
  induction x with
  | nil => rfl
  | cons a as ih => simp [lexDiff, ih]

theorem lexDiff_neg (x y : List Int) : lexDiff x y = -lexDiff y x := by
  induction x generalizing y with
  | nil => cases y <;> simp [lexDiff]
  | cons a as ih =>
      cases y with
      | nil => simp [lexDiff]
      | cons b bs =>
          by_cases hab : a = b
          · simp [lexDiff, hab, ih bs]
          · have hba : ¬ b = a := fun h => hab h.symm
            simp [lexDiff, hab, hba]

theorem lexDiff_eq_zero (x y : List Int) (hl : x.length = y.length)
    (h : lexDiff x y = 0) : x = y := by
  induction x generalizing y with
  | nil => cases y with
      | nil => rfl
      | cons b bs => simp at hl
  | cons a as ih =>
      cases y with
      | nil => simp at hl
      | cons b bs =>
          by_cases hab : a = b
          · simp only [lexDiff, if_pos hab] at h
            simp at hl
            rw [hab, ih bs hl h]
          · simp only [lexDiff, if_neg hab] at h
            omega

theorem lexDiff_trans (x : List Int) : ∀ (y z : List Int),
    x.length = y.length → y.length = z.length →
    ((lexDiff x y ≤ 0 → lexDiff y z ≤ 0 → lexDiff x z ≤ 0)
      ∧ (lexDiff x y < 0 → lexDiff y z ≤ 0 → lexDiff x z < 0)
      ∧ (lexDiff x y ≤ 0 → lexDiff y z < 0 → lexDiff x z < 0)) := by
  induction x with
  | nil =>
      intro y z hxy hyz
      have hy : y = [] := List.length_eq_zero.mp (by simpa using hxy.symm)
      have hz : z = [] := List.length_eq_zero.mp (by rw [hy] at hyz; simpa using hyz.symm)
      subst hy; subst hz
      simp [lexDiff]
  | cons a as ih =>
      intro y z hxy hyz
      cases y with
      | nil => simp at hxy
      | cons b bs =>
          cases z with
          | nil => simp at hyz
          | cons c cs =>
              have hl1 : as.length = bs.length := by simpa using hxy
              have hl2 : bs.length = cs.length := by simpa using hyz
              obtain ⟨t1, t2, t3⟩ := ih bs cs hl1 hl2
              by_cases hab : a = b <;> by_cases hbc : b = c
              · have hac : a = c := hab.trans hbc
                simp only [lexDiff, if_pos hab, if_pos hbc, if_pos hac]
                exact ⟨t1, t2, t3⟩
              · have hac : ¬ a = c := by rw [hab]; exact hbc
                simp only [lexDiff, if_pos hab, if_neg hbc, if_neg hac]
                rw [hab]
                refine ⟨fun _ h2 => h2, fun _ h2 => by omega, fun _ h2 => h2⟩
              · have hac : ¬ a = c := by rw [← hbc]; exact hab
                simp only [lexDiff, if_neg hab, if_pos hbc, if_neg hac]
                rw [hbc]
                refine ⟨fun h1 _ => h1, fun h1 _ => h1, fun h1 _ => by omega⟩
              · by_cases hac : a = c
                · -- here the premises force a < b < c = a, a contradiction
                  simp only [lexDiff, if_neg hab, if_neg hbc, if_pos hac]
                  refine ⟨fun h1 h2 => by omega, fun h1 h2 => by omega, fun h1 h2 => by omega⟩
                · simp only [lexDiff, if_neg hab, if_neg hbc, if_neg hac]
                  refine ⟨fun h1 h2 => by omega, fun h1 h2 => by omega, fun h1 h2 => by omega⟩

theorem keyVec_length (rules : List PrecedenceRule) (p : List Relationship) :
    (keyVec rules p).length = rules.length := by
  simp [keyVec]

theorem compare_eq_lexDiff (a b : List Relationship) (rules : List PrecedenceRule) :
    compare a b rules = lexDiff (keyVec rules a) (keyVec rules b) := by
  induction rules with
  | nil => rfl
  | cons rule rest ih =>
      by_cases h1 : rule.Rule = "path_with"
      · cases hA : pathContains a rule.Relation <;> cases hB : pathContains b rule.Relation <;>
          simp [compare, keyVec, ruleKey, lexDiff, h1, hA, hB, ih]
      · by_cases h2 : rule.Rule = "path_without"
        · cases hA : pathContains a rule.Relation <;> cases hB : pathContains b rule.Relation <;>
            simp [compare, keyVec, ruleKey, lexDiff, h1, h2, hA, hB, ih]
        · by_cases h3 : rule.Rule = "path_with_fewer"
          · by_cases hC : pathCount a rule.Relation = pathCount b rule.Relation
            · simp [compare, keyVec, ruleKey, lexDiff, h1, h2, h3, hC, ih]
            · have hCi : ¬ ((pathCount a rule.Relation : Int) = (pathCount b rule.Relation : Int)) := by
                exact_mod_cast hC
              simp [compare, keyVec, ruleKey, lexDiff, h1, h2, h3, hC, hCi]
          · simp [compare, keyVec, ruleKey, lexDiff, h1, h2, h3, ih]

theorem compare_zero_iff_keyVec (a b : List Relationship) (rules : List PrecedenceRule) :
    compare a b rules = 0 ↔ keyVec rules a = keyVec rules b := by
  rw [compare_eq_lexDiff]
  constructor
  · intro h
    exact lexDiff_eq_zero _ _ (by rw [keyVec_length, keyVec_length]) h
  · intro h
    rw [h]
    exact lexDiff_self _

theorem compare_specCompare (rules : List PrecedenceRule) (a b : List Relationship) :
    (compare a b rules < 0 ↔ specCompare rules a b = Ordering.lt)
    ∧ (compare a b rules = 0 ↔ specCompare rules a b = Ordering.eq)
    ∧ (0 < compare a b rules ↔ specCompare rules a b = Ordering.gt) := by
  induction rules with
  | nil => simp [compare, specCompare]
  | cons rule rest ih =>
      by_cases h1 : rule.Rule = "path_with"
      · cases hA : pathContains a rule.Relation <;> cases hB : pathContains b rule.Relation <;>
          simp [compare, specCompare, specRuleVerdict, h1, hA, hB, ih]
      · by_cases h2 : rule.Rule = "path_without"
        · cases hA : pathContains a rule.Relation <;> cases hB : pathContains b rule.Relation <;>
            simp [compare, specCompare, specRuleVerdict, h1, h2, hA, hB, ih]
        · by_cases h3 : rule.Rule = "path_with_fewer"
          · rcases lt_trichotomy (pathCount a rule.Relation) (pathCount b rule.Relation)
              with hC | hC | hC
            · have hne : ¬ pathCount a rule.Relation = pathCount b rule.Relation := by omega
              have hlt : ¬ pathCount b rule.Relation < pathCount a rule.Relation := by omega
              simp only [compare, specCompare, specRuleVerdict, h1, h2, h3,
                if_neg, if_pos, if_true, if_false, hne, hC, hlt]
              simp [hne, hC]
              omega
            · simp [compare, specCompare, specRuleVerdict, h1, h2, h3, hC, ih,
                lt_irrefl]
            · have hne : ¬ pathCount a rule.Relation = pathCount b rule.Relation := by omega
              have hlt : ¬ pathCount a rule.Relation < pathCount b rule.Relation := by omega
              simp [compare, specCompare, specRuleVerdict, h1, h2, h3, hne, hC, hlt]
              omega
          · simp [compare, specCompare, specRuleVerdict, h1, h2, h3, ih]

theorem compare_antisymm (a b : List Relationship) (rules : List PrecedenceRule) :
    compare a b rules = -compare b a rules := by
  rw [compare_eq_lexDiff, compare_eq_lexDiff, lexDiff_neg]

theorem effAux_sound (rules : List PrecedenceRule) :
    ∀ (ps : List (List Relationship)) (h0 : List Relationship)
      (es : List (List Relationship)),
    (∀ e ∈ es, keyVec rules e = keyVec rules h0) →
    ((∀ o ∈ effectivePathsAux rules ps (h0 :: es),
        ∀ o' ∈ effectivePathsAux rules ps (h0 :: es), keyVec rules o = keyVec rules o')
      ∧ (∀ o ∈ effectivePathsAux rules ps (h0 :: es), ∀ q ∈ ps, compare o q rules ≤ 0)
      ∧ (∀ o ∈ effectivePathsAux rules ps (h0 :: es), ∀ q ∈ h0 :: es,
          compare o q rules ≤ 0)) := by
  intro ps
  induction ps with
  | nil =>
      intro h0 es hes
      have hout : effectivePathsAux rules [] (h0 :: es) = h0 :: es := rfl
      rw [hout]
      have kAll : ∀ e ∈ h0 :: es, keyVec rules e = keyVec rules h0 := by
        intro e he
        rcases List.mem_cons.mp he with h | h
        · rw [h]
        · exact hes e h
      refine ⟨fun o ho o' ho' => by rw [kAll o ho, kAll o' ho'],
        fun o ho q hq => by simp at hq, fun o ho q hq => ?_⟩
      rw [compare_eq_lexDiff, kAll o ho, kAll q hq, lexDiff_self]
  | cons p ps ih =>
      intro h0 es hes
      have hunf : effectivePathsAux rules (p :: ps) (h0 :: es)
          = (if compare p h0 rules < 0 then effectivePathsAux rules ps [p]
             else if compare p h0 rules = 0 then
               effectivePathsAux rules ps ((h0 :: es) ++ [p])
             else effectivePathsAux rules ps (h0 :: es)) := rfl
      rcases lt_trichotomy (compare p h0 rules) 0 with hc | hc | hc
      · rw [hunf, if_pos hc]
        obtain ⟨i1, i2, i3⟩ := ih p [] (by intro e he; simp at he)
        refine ⟨i1, ?_, ?_⟩
        · intro o ho q hq
          rcases List.mem_cons.mp hq with h | h
          · rw [h]; exact i3 o ho p (by simp)
          · exact i2 o ho q h
        · intro o ho q hq
          have hkq : keyVec rules q = keyVec rules h0 := by
            rcases List.mem_cons.mp hq with h | h
            · rw [h]
            · exact hes q h
          have h_o_p : compare o p rules ≤ 0 := i3 o ho p (by simp)
          have hph0 : lexDiff (keyVec rules p) (keyVec rules h0) < 0 := by
            rw [← compare_eq_lexDiff]; exact hc
          rw [compare_eq_lexDiff] at h_o_p ⊢
          rw [hkq]
          exact le_of_lt ((lexDiff_trans (keyVec rules o) (keyVec rules p)
            (keyVec rules h0) (by simp [keyVec_length]) (by simp [keyVec_length])).2.2
            h_o_p hph0)
      · have hk : keyVec rules p = keyVec rules h0 :=
          (compare_zero_iff_keyVec p h0 rules).mp hc
        rw [hunf, if_neg (by omega), if_pos hc]
        have hcons : (h0 :: es) ++ [p] = h0 :: (es ++ [p]) := rfl
        rw [hcons]
        obtain ⟨i1, i2, i3⟩ := ih h0 (es ++ [p]) (by
          intro e he
          rcases List.mem_append.mp he with h | h
          · exact hes e h
          · simp at h; rw [h, hk])
        refine ⟨i1, ?_, ?_⟩
        · intro o ho q hq
          rcases List.mem_cons.mp hq with h | h
          · rw [h]; exact i3 o ho p (by simp)
          · exact i2 o ho q h
        · intro o ho q hq
          apply i3 o ho q
          rcases List.mem_cons.mp hq with h | h
          · rw [h]; simp
          · simp [h]
      · rw [hunf, if_neg (by omega), if_neg (by omega)]
        obtain ⟨i1, i2, i3⟩ := ih h0 es hes
        refine ⟨i1, ?_, i3⟩
        intro o ho q hq
        rcases List.mem_cons.mp hq with h | h
        · rw [h]
          have h_o_h0 : compare o h0 rules ≤ 0 := i3 o ho h0 (by simp)
          have h_h0_p : compare h0 p rules < 0 := by
            have ha := compare_antisymm h0 p rules
            omega
          rw [compare_eq_lexDiff] at h_o_h0 h_h0_p ⊢
          exact le_of_lt ((lexDiff_trans (keyVec rules o) (keyVec rules h0)
            (keyVec rules p) (by simp [keyVec_length]) (by simp [keyVec_length])).2.2
            h_o_h0 h_h0_p)
        · exact i2 o ho q h

/-- C2: the path reducer never returns a path while a strictly better input
path exists; all returned paths are mutual ties; and `compare` consults the
rules in declared order, the first discriminating rule deciding the sign and
an all-tie rule sequence yielding zero (refinement against the spec-side
`specCompare`). -/
theorem C2_effectivePaths_sound (paths : List (List Relationship))
    (rules : List PrecedenceRule) :
    (∀ p ∈ effectivePaths paths rules, ∀ q ∈ paths, ¬ compare q p rules < 0)
    ∧ (∀ p ∈ effectivePaths paths rules, ∀ q ∈ effectivePaths paths rules,
        compare p q rules = 0)
    ∧ (∀ a b, (compare a b rules < 0 ↔ specCompare rules a b = Ordering.lt)
        ∧ (compare a b rules = 0 ↔ specCompare rules a b = Ordering.eq)
        ∧ (0 < compare a b rules ↔ specCompare rules a b = Ordering.gt)) := by
  cases paths with
  | nil =>
      exact ⟨by simp [effectivePaths], by simp [effectivePaths],
        fun a b => compare_specCompare rules a b⟩
  | cons p0 rest =>
      have hdef : effectivePaths (p0 :: rest) rules = effectivePathsAux rules rest [p0] := rfl
      obtain ⟨i1, i2, i3⟩ := effAux_sound rules rest p0 [] (by simp)
      refine ⟨?_, ?_, fun a b => compare_specCompare rules a b⟩
      · intro p hp q hq
        rw [hdef] at hp
        have hle : compare p q rules ≤ 0 := by
          rcases List.mem_cons.mp hq with h | h
          · rw [h]; exact i3 p hp p0 (by simp)
          · exact i2 p hp q h
        have ha := compare_antisymm q p rules
        omega
      · intro p hp q hq
        rw [hdef] at hp hq
        exact (compare_zero_iff_keyVec p q rules).mpr (i1 p hp q hq)

/-- Witness for C2 at a concrete input: with rule `path_with owner`, the kept
owner path is never strictly beaten by the dropped editor path. -/
theorem C2_witness :
    ¬ compare [⟨⟨"d1", "document"⟩, ⟨"a", "user"⟩, "editor"⟩]
        [⟨⟨"d1", "document"⟩, ⟨"a", "user"⟩, "owner"⟩]
        [⟨"path_with", "owner"⟩] < 0 :=
  (C2_effectivePaths_sound
      [[⟨⟨"d1", "document"⟩, ⟨"a", "user"⟩, "owner"⟩],
        [⟨⟨"d1", "document"⟩, ⟨"a", "user"⟩, "editor"⟩]]
      [⟨"path_with", "owner"⟩]).1
    [⟨⟨"d1", "document"⟩, ⟨"a", "user"⟩, "owner"⟩] (by decide)
    [⟨⟨"d1", "document"⟩, ⟨"a", "user"⟩, "editor"⟩] (by decide)

theorem effAux_ne_nil (rules : List PrecedenceRule) :
    ∀ (ps eff : List (List Relationship)), eff ≠ [] →
    effectivePathsAux rules ps eff ≠ [] := by
  intro ps
  induction ps with
  | nil => intro eff h; simpa [effectivePathsAux] using h
  | cons p ps ih =>
      intro eff h
      cases eff with
      | nil => exact absurd rfl h
      | cons e0 es =>
          have hunf : effectivePathsAux rules (p :: ps) (e0 :: es)
              = (if compare p e0 rules < 0 then effectivePathsAux rules ps [p]
                 else if compare p e0 rules = 0 then
                   effectivePathsAux rules ps ((e0 :: es) ++ [p])
                 else effectivePathsAux rules ps (e0 :: es)) := rfl
          rw [hunf]
          rcases lt_trichotomy (compare p e0 rules) 0 with hc | hc | hc
          · rw [if_pos hc]; exact ih [p] (by simp)
          · rw [if_neg (by omega), if_pos hc]; exact ih _ (by simp)
          · rw [if_neg (by omega), if_neg (by omega)]; exact ih _ (by simp)

theorem effAux_all_ties (rules : List PrecedenceRule) :
    ∀ (qs : List (List Relationship)) (h0 : List Relationship)
      (acc : List (List Relationship)),
    (∀ q ∈ qs, keyVec rules q = keyVec rules h0) →
    effectivePathsAux rules qs (h0 :: acc) = (h0 :: acc) ++ qs := by
  intro qs
  induction qs with
  | nil => intro h0 acc _; simp [effectivePathsAux]
  | cons q qs ih =>
      intro h0 acc hq
      have hc : compare q h0 rules = 0 :=
        (compare_zero_iff_keyVec q h0 rules).mpr (hq q (by simp))
      have hunf : effectivePathsAux rules (q :: qs) (h0 :: acc)
          = effectivePathsAux rules qs ((h0 :: acc) ++ [q]) := by
        simp [effectivePathsAux, hc]
      rw [hunf]
      have hcons : (h0 :: acc) ++ [q] = h0 :: (acc ++ [q]) := rfl
      rw [hcons, ih h0 (acc ++ [q]) (fun r hr => hq r (by simp [hr]))]
      simp

/-- C7: path reduction is idempotent — reducing the reduced path set again
changes nothing, for every path list and every rule sequence. -/
theorem C7_effectivePaths_idempotent (paths : List (List Relationship))
    (rules : List PrecedenceRule) :
    effectivePaths (effectivePaths paths rules) rules = effectivePaths paths rules := by
  cases paths with
  | nil => rfl
  | cons p0 rest =>
      have hne : effectivePathsAux rules rest [p0] ≠ [] :=
        effAux_ne_nil rules rest [p0] (by simp)
      obtain ⟨i1, -, -⟩ := effAux_sound rules rest p0 [] (by simp)
      have hdef : effectivePaths (p0 :: rest) rules = effectivePathsAux rules rest [p0] := rfl
      rcases hout : effectivePathsAux rules rest [p0] with - | ⟨o0, os⟩
      · exact absurd hout hne
      · rw [hdef, hout]
        have hdef2 : effectivePaths (o0 :: os) rules = effectivePathsAux rules os [o0] := rfl
        rw [hdef2]
        have hmut : ∀ q ∈ os, keyVec rules q = keyVec rules o0 := by
          intro q hq
          apply i1 q _ o0 _ <;> rw [hout] <;> simp [hq]
        rw [effAux_all_ties rules os o0 [] hmut]
        simp

/-- C3 (amended): a path is returned by `ListPaths` exactly when it is an
enumerated path whose final far end passes the query's conjunctive WHERE
filter `codeKeep` — the `stop_on` equality applies only when the stop pair is
non-empty, and the `stop_on_types` membership applies whenever the slice is
non-nil, both at once. -/
theorem C3_listPaths_result_filter (store : List Relationship)
    (req : TraversalRequest) (fuel : Nat) (p : List Relationship) :
    p ∈ itemsPaths (listPaths store req fuel)
      ↔ ∃ row ∈ enumRows store req fuel, codeKeep req row.next = true ∧ row.path = p := by
  constructor
  · intro hp
    obtain ⟨item, hitem, hpi⟩ := List.mem_flatMap.mp hp
    obtain ⟨k, hk, hik⟩ := List.mem_map.mp hitem
    rw [← hik] at hpi
    have hpi' : p ∈ ((keptRows store req fuel).filter
        (fun row => row.next = k)).map (fun row => row.path) := by
      cases hF : req.Forward <;> simpa [hF] using hpi
    obtain ⟨row, hrow, hrp⟩ := List.mem_map.mp hpi'
    have h1 := List.mem_filter.mp hrow
    have h2 := List.mem_filter.mp h1.1
    exact ⟨row, h2.1, by simpa using h2.2, hrp⟩
  · rintro ⟨row, hrow, hkeep, rfl⟩
    have hkept : row ∈ keptRows store req fuel :=
      List.mem_filter.mpr ⟨hrow, by simpa using hkeep⟩
    have hkey : row.next ∈ ((keptRows store req fuel).map (fun r => r.next)).dedup :=
      List.mem_dedup.mpr (List.mem_map.mpr ⟨row, hkept, rfl⟩)
    apply List.mem_flatMap.mpr
    refine ⟨_, List.mem_map.mpr ⟨row.next, hkey, rfl⟩, ?_⟩
    cases hF : req.Forward <;> simp [hF] <;>
      exact ⟨row, ⟨hkept, rfl⟩, rfl⟩

/-- C3 counterexample: with `stop_on = user:u1` set and `stop_on_types =
["group"]` non-empty at once, the seeded owner path reaches `user:u1` and the
spec's filter ("if stop_on is set: next == stop_on") keeps it, yet the query
returns nothing because the conjoined type filter rejects `user`. -/
theorem C3_counterexample :
    (∃ row ∈ enumRows [⟨⟨"d1", "document"⟩, ⟨"u1", "user"⟩, "owner"⟩]
        ⟨⟨"d1", "document"⟩, true, some ["group"], some ⟨"u1", "user"⟩⟩ 0,
        specResultKeep ⟨⟨"d1", "document"⟩, true, some ["group"], some ⟨"u1", "user"⟩⟩
          row.next = true
        ∧ row.path = [⟨⟨"d1", "document"⟩, ⟨"u1", "user"⟩, "owner"⟩])
    ∧ [⟨⟨"d1", "document"⟩, ⟨"u1", "user"⟩, "owner"⟩]
        ∉ itemsPaths (listPaths [⟨⟨"d1", "document"⟩, ⟨"u1", "user"⟩, "owner"⟩]
          ⟨⟨"d1", "document"⟩, true, some ["group"], some ⟨"u1", "user"⟩⟩ 0) := by
  decide

/-- Recognize a bulk DELETE event. -/
def isDeleteOp : DbEvent → Bool
  | DbEvent.deleteOp _ _ => true
  | _ => false

/-- Recognize a bulk INSERT event. -/
def isInsertOp : DbEvent → Bool
  | DbEvent.insertOp _ _ => true
  | _ => false

/-- The statement a write event ran on: `some tx` for a transaction, recorded
only for operation events. -/
def stmtOf : DbEvent → Option Nat
  | DbEvent.deleteOp tx _ => tx
  | DbEvent.insertOp tx _ => tx
  | _ => none

theorem manage_trace (m : Metadata) (req : List (String × List Relationship))
    (hvalid : req.all (fun kv => kv.2.all (fun rel => isValidRelation m rel)) = true) :
    (manageRelationshipsT m req ⟨0, []⟩).1.events
      = (match req.lookup "delete" with
         | some dels =>
             if dels = [] then [DbEvent.beginTx 0, DbEvent.commitTx 0]
             else [DbEvent.beginTx 0, DbEvent.deleteOp (some 0) dels, DbEvent.commitTx 0]
         | none => [])
        ++ (match req.lookup "create" with
            | some creates =>
                if (req.lookup "delete").isSome then
                  (if creates = [] then [DbEvent.beginTx 1, DbEvent.commitTx 1]
                   else [DbEvent.beginTx 1, DbEvent.insertOp (some 1) creates,
                     DbEvent.commitTx 1])
                else
                  (if creates = [] then [DbEvent.beginTx 0, DbEvent.commitTx 0]
                   else [DbEvent.beginTx 0, DbEvent.insertOp (some 0) creates,
                     DbEvent.commitTx 0])
            | none => []) := by
  rcases hdel : req.lookup "delete" with - | dels <;>
    rcases hcre : req.lookup "create" with - | creates
  · simp [manageRelationshipsT, hvalid, hdel, hcre]
  · by_cases hc : creates = [] <;>
      simp [manageRelationshipsT, hvalid, hdel, hcre, createRelationshipsT,
        withTransaction, insertBulkT, hc]
  · by_cases hd : dels = [] <;>
      simp [manageRelationshipsT, hvalid, hdel, hcre, deleteRelationshipsT,
        withTransaction, deleteBulkT, hd]
  · by_cases hd : dels = [] <;> by_cases hc : creates = [] <;>
      simp [manageRelationshipsT, hvalid, hdel, hcre, deleteRelationshipsT,
        createRelationshipsT, withTransaction, deleteBulkT, insertBulkT, hd, hc]

theorem trace_ops (m : Metadata) (req : List (String × List Relationship))
    (hvalid : req.all (fun kv => kv.2.all (fun rel => isValidRelation m rel)) = true) :
    ((manageRelationshipsT m req ⟨0, []⟩).1.events.all fun e =>
      (!isDeleteOp e || (decide (stmtOf e = some 0) && (req.lookup "delete").isSome))
        && (!isInsertOp e
          || decide (stmtOf e
              = some (if (req.lookup "delete").isSome then 1 else 0)))) = true := by
  rw [manage_trace m req hvalid]
  rcases hdel : req.lookup "delete" with - | dels <;>
    rcases hcre : req.lookup "create" with - | creates
  · simp [hdel, hcre]
  · by_cases hc : creates = [] <;>
      simp [hdel, hcre, hc, isDeleteOp, isInsertOp, stmtOf]
  · by_cases hd : dels = [] <;>
      simp [hdel, hcre, hd, isDeleteOp, isInsertOp, stmtOf]
  · by_cases hd : dels = [] <;> by_cases hc : creates = [] <;>
      simp [hdel, hcre, hd, hc, isDeleteOp, isInsertOp, stmtOf]

theorem trace_split (m : Metadata) (req : List (String × List Relationship))
    (hvalid : req.all (fun kv => kv.2.all (fun rel => isValidRelation m rel)) = true) :
    ∃ k, ((manageRelationshipsT m req ⟨0, []⟩).1.events.take k).all
        (fun e => !isInsertOp e) = true
      ∧ ((manageRelationshipsT m req ⟨0, []⟩).1.events.drop k).all
        (fun e => !isDeleteOp e) = true := by
  rw [manage_trace m req hvalid]
  refine ⟨(match req.lookup "delete" with
    | some dels =>
        if dels = [] then [DbEvent.beginTx 0, DbEvent.commitTx 0]
        else [DbEvent.beginTx 0, DbEvent.deleteOp (some 0) dels, DbEvent.commitTx 0]
    | none => []).length, ?_, ?_⟩
  · rw [List.take_left]
    rcases hdel : req.lookup "delete" with - | dels
    · simp
    · by_cases hd : dels = [] <;> simp [hd, isInsertOp]
  · rw [List.drop_left]
    rcases hcre : req.lookup "create" with - | creates
    · simp
    · rcases hs : (req.lookup "delete").isSome <;> by_cases hc : creates = [] <;>
        simp [hs, hc, isDeleteOp]

/-- C4 (amended): every entry of both optional sequences is validated before
any write (an invalid entry yields 400 with an empty trace); every deletion
event precedes every creation event; the deletions share one transaction and
the creations share one transaction, but the two batches run in two distinct
transactions, not one. -/
theorem C4_manageRelationships (m : Metadata)
    (req : List (String × List Relationship)) :
    ((req.all (fun kv => kv.2.all (fun rel => isValidRelation m rel)) = false →
        (manageRelationshipsT m req ⟨0, []⟩).1.events = []
        ∧ (manageRelationshipsT m req ⟨0, []⟩).2 = 400)
      ∧ (∃ k, (∀ e ∈ ((manageRelationshipsT m req ⟨0, []⟩).1.events.take k),
            isInsertOp e = false)
          ∧ (∀ e ∈ ((manageRelationshipsT m req ⟨0, []⟩).1.events.drop k),
            isDeleteOp e = false))
      ∧ (∀ e ∈ (manageRelationshipsT m req ⟨0, []⟩).1.events,
          ∀ e' ∈ (manageRelationshipsT m req ⟨0, []⟩).1.events,
          isDeleteOp e = true → isDeleteOp e' = true → stmtOf e = stmtOf e')
      ∧ (∀ e ∈ (manageRelationshipsT m req ⟨0, []⟩).1.events,
          ∀ e' ∈ (manageRelationshipsT m req ⟨0, []⟩).1.events,
          isInsertOp e = true → isInsertOp e' = true → stmtOf e = stmtOf e')
      ∧ (∀ e ∈ (manageRelationshipsT m req ⟨0, []⟩).1.events,
          ∀ e' ∈ (manageRelationshipsT m req ⟨0, []⟩).1.events,
          isDeleteOp e = true → isInsertOp e' = true → stmtOf e ≠ stmtOf e')) := by
  by_cases hvalid : req.all (fun kv => kv.2.all (fun rel => isValidRelation m rel)) = true
  · have hops : ∀ e ∈ (manageRelationshipsT m req ⟨0, []⟩).1.events,
        (isDeleteOp e = true →
          stmtOf e = some 0 ∧ (req.lookup "delete").isSome = true)
        ∧ (isInsertOp e = true →
          stmtOf e = some (if (req.lookup "delete").isSome then 1 else 0)) := by
      intro e he
      have hb := List.all_eq_true.mp (trace_ops m req hvalid) e he
      simp only [Bool.and_eq_true, Bool.or_eq_true, Bool.not_eq_eq_eq_not,
        Bool.not_true, decide_eq_true_eq] at hb
      constructor
      · intro hde
        rcases hb.1 with h | h
        · rw [hde] at h; exact absurd h (by simp)
        · exact ⟨h.1, h.2⟩
      · intro hie
        rcases hb.2 with h | h
        · rw [hie] at h; exact absurd h (by simp)
        · exact h
    refine ⟨fun h => by rw [hvalid] at h; exact absurd h (by simp), ?_, ?_, ?_, ?_⟩
    · obtain ⟨k, hb1, hb2⟩ := trace_split m req hvalid
      refine ⟨k, fun e he => ?_, fun e he => ?_⟩
      · have := List.all_eq_true.mp hb1 e he
        simpa using this
      · have := List.all_eq_true.mp hb2 e he
        simpa using this
    · intro e he e' he' hde hde'
      rw [((hops e he).1 hde).1, ((hops e' he').1 hde').1]
    · intro e he e' he' hie hie'
      rw [(hops e he).2 hie, (hops e' he').2 hie']
    · intro e he e' he' hde hie'
      obtain ⟨h0, hsome⟩ := (hops e he).1 hde
      have h1 := (hops e' he').2 hie'
      rw [h0, h1, hsome]
      simp
  · have hv : req.all (fun kv => kv.2.all (fun rel => isValidRelation m rel)) = false := by
      simpa using hvalid
    have hres : manageRelationshipsT m req ⟨0, []⟩ = (⟨0, []⟩, 400) := by
      simp [manageRelationshipsT, hv]
    rw [hres]
    exact ⟨fun _ => ⟨rfl, rfl⟩, ⟨0, by simp, by simp⟩, by simp, by simp, by simp⟩

/-- C4 counterexample: a valid request carrying one deletion and one creation
produces a trace whose two write operations run on transaction 0 and
transaction 1 — no single transaction contains both, contradicting "the
deletions and creations together execute inside one single transaction". -/
theorem C4_counterexample :
    ¬ ∃ t : Nat, ∀ e ∈ (manageRelationshipsT specSchema
        [("delete", [⟨⟨"d1", "document"⟩, ⟨"u1", "user"⟩, "owner"⟩]),
          ("create", [⟨⟨"d2", "document"⟩, ⟨"u2", "user"⟩, "owner"⟩])] ⟨0, []⟩).1.events,
        (isDeleteOp e = true ∨ isInsertOp e = true) → stmtOf e = some t := by
  rintro ⟨t, h⟩
  have h1 := h (DbEvent.deleteOp (some 0)
      [⟨⟨"d1", "document"⟩, ⟨"u1", "user"⟩, "owner"⟩])
    (by decide) (Or.inl (by decide))
  have h2 := h (DbEvent.insertOp (some 1)
      [⟨⟨"d2", "document"⟩, ⟨"u2", "user"⟩, "owner"⟩])
    (by decide) (Or.inr (by decide))
  simp [stmtOf] at h1 h2
  omega

/-- Witness for C4 at a concrete input: in the two-entry request the delete
operation and the insert operation run on distinct statements. -/
theorem C4_witness :
    stmtOf (DbEvent.deleteOp (some 0)
        [⟨⟨"d1", "document"⟩, ⟨"u1", "user"⟩, "owner"⟩])
      ≠ stmtOf (DbEvent.insertOp (some 1)
        [⟨⟨"d2", "document"⟩, ⟨"u2", "user"⟩, "owner"⟩]) :=
  (C4_manageRelationships specSchema
      [("delete", [⟨⟨"d1", "document"⟩, ⟨"u1", "user"⟩, "owner"⟩]),
        ("create", [⟨⟨"d2", "document"⟩, ⟨"u2", "user"⟩, "owner"⟩])]).2.2.2.2
    (DbEvent.deleteOp (some 0) [⟨⟨"d1", "document"⟩, ⟨"u1", "user"⟩, "owner"⟩])
    (by decide)
    (DbEvent.insertOp (some 1) [⟨⟨"d2", "document"⟩, ⟨"u2", "user"⟩, "owner"⟩])
    (by decide) (by decide) (by decide)

/-- C5: with `show_matching_paths = true`, a path containing two distinct
`any_of` relations is appended once per matching relation — here twice — so
the at-most-once recording the spec prescribes does not hold in the code. -/
theorem C5_duplicate_matching_path :
    evaluatePermission ⟨["owner", "editor"], []⟩
      [[⟨⟨"d1", "document"⟩, ⟨"u1", "user"⟩, "owner"⟩,
        ⟨⟨"d1", "document"⟩, ⟨"u1", "user"⟩, "editor"⟩]] true
      = ⟨true,
          [[⟨⟨"d1", "document"⟩, ⟨"u1", "user"⟩, "owner"⟩,
            ⟨⟨"d1", "document"⟩, ⟨"u1", "user"⟩, "editor"⟩],
            [⟨⟨"d1", "document"⟩, ⟨"u1", "user"⟩, "owner"⟩,
              ⟨⟨"d1", "document"⟩, ⟨"u1", "user"⟩, "editor"⟩]]⟩ := by
  decide

/-- C6: a schema-valid check-one-permission request over an empty relation
store makes the service return an empty slice, and the handler's unguarded
indexing `permissionCheck[0]` is out of range — the `Except.ok none` below is
exactly that out-of-range access, a Go runtime panic, where the claim expects
an `allowed = false` evaluation. -/
theorem C6_checkPermission_empty_panics :
    checkPermissionHandler specSchema [] 5
      [("resource", "document:d1"), ("subject", "user:alice"),
        ("permission", "edit")]
      = Except.ok none := by
  rfl

/-- C8 (amended): inserting a schema-valid relationship that is not already
stored and then deleting it restores the store exactly. -/
theorem C8_insert_delete_roundtrip (m : Metadata) (store : List Relationship)
    (r : Relationship) (hvalid : isValidRelation m r = true) (hnew : r ∉ store) :
    deleteBulk (insertBulk store [r]) [r] = store := by
  have hins : insertBulk store [r] = store ++ [r] := by
    simp [insertBulk, hnew]
  rw [hins]
  unfold deleteBulk
  rw [List.filter_append]
  have h1 : store.filter (fun x => decide (x ∉ [r])) = store := by
    apply List.filter_eq_self.mpr
    intro a ha
    simp only [List.mem_singleton, decide_eq_true_eq]
    rintro rfl
    exact hnew ha
  have h2 : List.filter (fun x => decide (x ∉ [r])) [r] = [] := by simp
  rw [h1, h2, List.append_nil]

/-- C8 counterexample: when the valid relationship is already stored, the
insert is a conflict no-op but the delete removes the pre-existing row, so
insert-then-delete does not restore the original store. -/
theorem C8_counterexample :
    isValidRelation specSchema ⟨⟨"d1", "document"⟩, ⟨"u1", "user"⟩, "owner"⟩ = true
    ∧ deleteBulk (insertBulk [⟨⟨"d1", "document"⟩, ⟨"u1", "user"⟩, "owner"⟩]
          [⟨⟨"d1", "document"⟩, ⟨"u1", "user"⟩, "owner"⟩])
        [⟨⟨"d1", "document"⟩, ⟨"u1", "user"⟩, "owner"⟩]
      ≠ [⟨⟨"d1", "document"⟩, ⟨"u1", "user"⟩, "owner"⟩] := by
  decide

/-- Witness for C8 at a concrete input: the valid owner relationship, absent
from the empty store, round-trips. -/
theorem C8_witness :
    isValidRelation specSchema ⟨⟨"d1", "document"⟩, ⟨"u1", "user"⟩, "owner"⟩ = true
    ∧ (⟨⟨"d1", "document"⟩, ⟨"u1", "user"⟩, "owner"⟩ : Relationship)
        ∉ ([] : List Relationship)
    ∧ deleteBulk (insertBulk [] [⟨⟨"d1", "document"⟩, ⟨"u1", "user"⟩, "owner"⟩])
        [⟨⟨"d1", "document"⟩, ⟨"u1", "user"⟩, "owner"⟩] = [] :=
  ⟨by decide, by decide,
    C8_insert_delete_roundtrip specSchema []
      ⟨⟨"d1", "document"⟩, ⟨"u1", "user"⟩, "owner"⟩ (by decide) (by decide)⟩

theorem str_data_append (a b : String) : (a ++ b).data = a.data ++ b.data := by
  rcases a with ⟨x⟩
  rcases b with ⟨y⟩
  rfl

theorem str_mk_data (s : String) : String.mk s.data = s := by
  rcases s with ⟨d⟩
  rfl

theorem splitFirstColon_append (t rest : List Char) (h : ':' ∉ t) :
    splitFirstColon (t ++ ':' :: rest) = (t, some rest) := by
  induction t with
  | nil => simp [splitFirstColon]
  | cons c cs ih =>
      have hc : ¬ c = ':' := by
        intro hh
        exact h (by simp [hh])
      have h' : ':' ∉ cs := fun hh => h (by simp [hh])
      simp [splitFirstColon, hc, ih h']

theorem lookup_isSome_mem {α : Type} (l : List (String × α)) (t : String)
    (h : (l.lookup t).isSome = true) : t ∈ l.map Prod.fst := by
  induction l with
  | nil => simp [List.lookup] at h
  | cons kv rest ih =>
      obtain ⟨k, v⟩ := kv
      by_cases hk : t = k
      · simp [hk]
      · have hbeq : (t == k) = false := by simp [hk]
        simp only [List.lookup, hbeq] at h
        simp [ih h]

/-- C9: the object wire form round-trips — for a valid object (non-empty type
and id, type declared in the schema), parsing the serialized `"type:id"` by
splitting once on the first colon returns the object unchanged. -/
theorem C9_object_roundtrip (o : Object)
    (hvalid : isValidObject specSchema o = true) :
    parseObject (serializeObject o) = some o := by
  by_cases h1 : o.type = ""
  · simp [isValidObject, h1] at hvalid
  by_cases h2 : o.id = ""
  · simp [isValidObject, h1, h2] at hvalid
  have hdecl : (specSchema.Objects.lookup o.type).isSome = true := by
    simpa [isValidObject, h1, h2] using hvalid
  have hmem : o.type ∈ specSchema.Objects.map Prod.fst :=
    lookup_isSome_mem _ _ hdecl
  have htypes : o.type = "document" ∨ o.type = "folder" ∨ o.type = "user"
      ∨ o.type = "group" := by
    simpa [specSchema] using hmem
  have hnocolon : ':' ∉ o.type.data := by
    rcases htypes with h | h | h | h <;> rw [h] <;> decide
  have hdata : (serializeObject o).data = o.type.data ++ ':' :: o.id.data := by
    unfold serializeObject
    rw [str_data_append, str_data_append]
    have hcolon : (":" : String).data = [':'] := rfl
    rw [hcolon, List.append_assoc]
    rfl
  unfold parseObject
  rw [hdata, splitFirstColon_append _ _ hnocolon]

/-- Witness for C9 at a concrete input: `document:d1` round-trips. -/
theorem C9_witness :
    isValidObject specSchema ⟨"d1", "document"⟩ = true
    ∧ parseObject (serializeObject ⟨"d1", "document"⟩) = some ⟨"d1", "document"⟩ :=
  ⟨by decide, C9_object_roundtrip ⟨"d1", "document"⟩ (by decide)⟩

/-- C10 (amended): the list-resource-relations endpoint rejects with a
validation error exactly the requests whose resource parameter is missing or
entirely empty; a present parameter whose type or id component is empty (such
as `"doc:"`, `":x"`, or `"doc"`) is accepted and reaches the store. -/
theorem C10_listResourceRelations_validation (m : Metadata)
    (store : List Relationship) (fuel : Nat) (params : List (String × String)) :
    (∃ e, listResourceRelationsHandler m store fuel params = Except.error e)
      ↔ (params.lookup "resource" = none ∨ params.lookup "resource" = some "") := by
  unfold listResourceRelationsHandler parseObjectParam
  rcases h : params.lookup "resource" with - | raw
  · simp
  · by_cases hr : raw = ""
    · simp [hr]
    · rcases hs : (splitFirstColon raw.data).2 with - | i <;> simp [hr, hs]

/-- C10 counterexample: the parameter `"doc:"` parses to an object with empty
id, is not validated, and the handler answers 200 with a store traversal
instead of the 400 the claim requires. -/
theorem C10_counterexample :
    listResourceRelationsHandler specSchema [] 0 [("resource", "doc:")]
      = Except.ok (⟨⟨"", "doc"⟩, true, some ["user", "group"], none⟩, []) := by
  rfl

end Authz
